import Mathlib

/-!
Verification of the Dom voice-control browser extension (content script,
number overlay, background tab switching) against its natural-language
specification.  JavaScript/TypeScript strings are modelled as `List Char`
(ASCII transcripts and commands); JS string primitives (`includes`,
`indexOf`, `substring`, `trim`, `toLowerCase`, `split(' ')`, `parseInt`)
are given explicit executable models below.
-/

namespace Dom

/-- JS `String.prototype.trim` removes leading and trailing whitespace.
Modelled on char lists: drop leading whitespace, then trailing. -/
def isWS (c : Char) : Bool := c.isWhitespace

/-- Drop leading whitespace. -/
def trimL (xs : List Char) : List Char := xs.dropWhile isWS

/-- Drop trailing whitespace. -/
def trimR (xs : List Char) : List Char := (xs.reverse.dropWhile isWS).reverse

/-- JS `trim`: drop leading then trailing whitespace. -/
def trimList (xs : List Char) : List Char := trimR (trimL xs)

/-- JS `toLowerCase` on ASCII text. -/
def lowerList (xs : List Char) : List Char := xs.map Char.toLower

/-- JS `String.prototype.includes`: substring containment
(the empty needle is contained in every string). -/
def containsL (hay needle : List Char) : Bool :=
  match hay with
  | [] => needle.isEmpty
  | _ :: t => needle.isPrefixOf hay || containsL t needle

/-- JS `String.prototype.indexOf`, as an `Option Nat`
(`none` models the JS return value `-1`). -/
def idxOfAux (hay needle : List Char) (i : Nat) : Option Nat :=
  match hay with
  | [] => if needle.isEmpty then some i else none
  | _ :: t => if needle.isPrefixOf hay then some i else idxOfAux t needle (i + 1)

def firstIdxOf (hay needle : List Char) : Option Nat := idxOfAux hay needle 0

/-- JS `String.prototype.split(' ')`: split on every single space,
keeping empty fragments (`"".split(' ')` is `[""]`). -/
def splitSp : List Char → List (List Char)
  | [] => [[]]
  | c :: cs =>
    match splitSp cs with
    | [] => [[c]]
    | w :: ws => if c = ' ' then [] :: w :: ws else (c :: w) :: ws

/-! ## extractTargetText (src/frontend/content/content.ts)

```ts
function extractTargetText(command: string, action: string): string {
  const actionIndex = command.indexOf(action);
  if (actionIndex === -1) return '';
  const afterAction = command.substring(actionIndex + action.length).trim();
  return afterAction.replace(/\b(the|a|an|button|link|field)\b/g, '').trim();
}
```

The regex `\b(the|a|an|button|link|field)\b` has alternatives made only of
word characters (`\w = [A-Za-z0-9_]`), each bracketed by word boundaries, so
a match is exactly a maximal run of word characters equal to one of the six
alternatives.  Global replacement by the empty string therefore deletes
exactly the maximal word runs that equal a listed stop word, which is what
`removeStop` below computes. -/

/-- JS `\w`: word character of the regex. -/
def isWordChar (c : Char) : Bool := c.isAlphanum || c = '_'

/-- The six stop words removed by the regex. -/
def stopWords : List (List Char) :=
  ["the".toList, "a".toList, "an".toList, "button".toList, "link".toList, "field".toList]

def isStopWord (run : List Char) : Bool := stopWords.contains run

/-- A finished maximal word run is emitted unless it is a stop word. -/
def emitRun (run : List Char) : List Char := if isStopWord run then [] else run

/-- Core scanner for the regex replacement: processes the string from the
right, returning the (still open) word run at the front together with the
already-processed output.  A non-word character closes the current run. -/
def removeStopCore : List Char → List Char × List Char
  | [] => ([], [])
  | c :: cs =>
    let p := removeStopCore cs
    if isWordChar c then (c :: p.1, p.2)
    else ([], c :: (emitRun p.1 ++ p.2))

/-- Model of `s.replace(/\b(the|a|an|button|link|field)\b/g, '')`. -/
def removeStop (xs : List Char) : List Char :=
  emitRun (removeStopCore xs).1 ++ (removeStopCore xs).2

/-- `extractTargetText`, translated line by line from
src/frontend/content/content.ts. -/
def extractTargetText (command action : List Char) : List Char :=
  match firstIdxOf command action with
  | none => []
  | some actionIndex =>
    let afterAction := trimList (command.drop (actionIndex + action.length))
    trimList (removeStop afterAction)

/-! ## showNumberOverlay / handleNumberKeyPress
(src/frontend/backup/content/numberOverlay.ts)

Overlay state: the module-level `numberedElements` array and the list of
rendered overlay entries (number, element).  Elements are abstract ids. -/

structure OverlayState (α : Type) where
  numberedElements : List α
  entries : List (Nat × α)
  deriving Repr, DecidableEq

/-- `showNumberOverlay(elements)`: keeps `elements.slice(0, 9)` and renders
one entry per kept element, numbered `index + 1`. -/
def showNumberOverlay {α : Type} (elements : List α) : OverlayState α :=
  let kept := elements.take 9
  { numberedElements := kept
    entries := kept.enum.map (fun p => (p.1 + 1, p.2)) }

/-- JS `parseInt(s)` (no radix argument): skip leading whitespace, optional
sign, then a `0x`/`0X` hexadecimal or decimal digit prefix; `none` models
`NaN`. -/
def digitsVal (base : Nat) (ds : List Char) (acc : Nat) : Nat :=
  match ds with
  | [] => acc
  | d :: ds => digitsVal base ds (acc * base + (if base = 16 then d.toLower.toNat - (if d.isDigit then '0'.toNat else 'a'.toNat - 10) else d.toNat - '0'.toNat))

def isHexDigit (c : Char) : Bool :=
  c.isDigit || ('a' ≤ c.toLower && c.toLower ≤ 'f')

def parseIntJS (s : List Char) : Option Int :=
  let s := trimL s
  let (sign, rest) : Int × List Char :=
    match s with
    | '-' :: r => (-1, r)
    | '+' :: r => (1, r)
    | r => (1, r)
  match rest with
  | '0' :: 'x' :: r | '0' :: 'X' :: r =>
    let ds := r.takeWhile isHexDigit
    if ds.isEmpty then none else some (sign * digitsVal 16 ds 0)
  | r =>
    let ds := r.takeWhile Char.isDigit
    if ds.isEmpty then none else some (sign * digitsVal 10 ds 0)

/-- Result of `handleNumberKeyPress`: which element (if any) was clicked and
whether the overlay was hidden. -/
structure KeyPressResult (α : Type) where
  clicked : Option α
  hidden : Bool
  deriving Repr, DecidableEq

/-- `handleNumberKeyPress(event)`, translated from numberOverlay.ts:
`const number = parseInt(key); if (number >= 1 && number <= 9 &&
number <= numberedElements.length) { ... click numberedElements[number-1] }
if (key === 'Escape') hideNumberOverlay()`. -/
def handleNumberKeyPress {α : Type} (key : List Char) (numberedElements : List α) :
    KeyPressResult α :=
  let clicked :=
    match parseIntJS key with
    | none => none
    | some number =>
      if 1 ≤ number && number ≤ 9 && number ≤ (numberedElements.length : Int) then
        numberedElements.get? (number.toNat - 1)
      else none
  { clicked := clicked
    hidden := clicked.isSome || key = "Escape".toList }

/-! ## Content-script speech recognition (src/unnamed/part_004,
`VoiceForwardContent.initializeVoiceRecognition` onresult handler)

A recognition result is the list of `(transcript, isFinal)` pairs the
handler loops over; observable side effects (messages to the popup /
background, backend calls) are collected as an `Effect` list.  The pending
2-second auto-execute timer is part of the state (`interimTimeout`);
scheduling it is not an observable message, and the handler clears it
before processing a final transcript. -/

structure RState where
  isActivated : Bool
  interimTimeout : Option (List Char)
  deriving Repr, DecidableEq

inductive Effect where
  | setActivationState (b : Bool)
  | transcriptionComplete (t : List Char)
  | transcriptionUpdate (t : List Char)
  | processVoiceCommand (t : List Char)
  | recordingStopped (t : List Char)
  | scheduleRecognitionStop
  deriving Repr, DecidableEq

/-- The 31-entry wake-word variation list, copied verbatim (duplicates
included) from the onresult handler. -/
def wakeWordVariations : List (List Char) :=
  ["hey dom".toList, "hey don".toList, "a dom".toList, "hey dumb".toList, "hey tom".toList,
   "hey dom".toList, "hey down".toList, "hey dawn".toList, "hey done".toList, "hey damn".toList,
   "a don".toList, "a tom".toList, "a done".toList, "aide on".toList, "hey damn".toList,
   "hey deem".toList, "hey dim".toList, "hay dom".toList, "hey doom".toList, "hey dom".toList,
   "hey dom".toList, "hey dom".toList, "hey dom".toList, "hey dom".toList, "hey dom".toList,
   "dom".toList, "don".toList, "tom".toList, "dumb".toList, "dawn".toList, "hey".toList]

/-- One variation matches: direct `includes`, or for variations of length
at most 4, some space-separated word of the transcript starts with the
variation, or is a prefix of the variation of length at least 2. -/
def matchesVariation (fullTranscript variation : List Char) : Bool :=
  containsL fullTranscript variation ||
    (variation.length ≤ 4 &&
      (splitSp fullTranscript).any (fun word =>
        variation.isPrefixOf word || (word.isPrefixOf variation && 2 ≤ word.length)))

/-- `wakeWordVariations.find(...)`: the first matching variation. -/
def detectWakeWord (fullTranscript : List Char) : Option (List Char) :=
  wakeWordVariations.find? (matchesVariation fullTranscript)

/-- The eight stop phrases of `isStopRecordingCommand`. -/
def stopPatterns : List (List Char) :=
  ["stop recording".toList, "stop record".toList, "end recording".toList,
   "finish recording".toList, "quit recording".toList, "close recording".toList,
   "turn off recording".toList, "disable recording".toList]

/-- `isStopRecordingCommand(command)`: lowercase, trim, then
`stopPatterns.some(pattern => lowerCommand.includes(pattern))`. -/
def isStopRecordingCommand (command : List Char) : Bool :=
  stopPatterns.any (fun pattern => containsL (trimList (lowerList command)) pattern)

/-- Concatenation of the final transcripts of a result batch, in order. -/
def finalOf (results : List (List Char × Bool)) : List Char :=
  ((results.filter (fun r => r.2)).map (fun r => r.1)).flatten

/-- Concatenation of the interim (non-final) transcripts, in order. -/
def interimOf (results : List (List Char × Bool)) : List Char :=
  ((results.filter (fun r => !r.2)).map (fun r => r.1)).flatten

/-- The lowercased trimmed combined transcript the handler computes:
`(finalTranscript + interimTranscript).trim().toLowerCase()`. -/
def fullTranscriptOf (results : List (List Char × Bool)) : List Char :=
  lowerList (trimList (finalOf results ++ interimOf results))

/-- The onresult handler, translated branch by branch from
src/unnamed/part_004 lines 1169-1366. -/
def onResult (s : RState) (results : List (List Char × Bool)) :
    RState × List Effect :=
  let finalTranscript := finalOf results
  let interimTranscript := interimOf results
  let fullTranscript := fullTranscriptOf results
  if !s.isActivated then
    match detectWakeWord fullTranscript with
    | none => (s, [])
    | some detectedWakeWord =>
      let s1 : RState := { s with isActivated := true }
      let wakeWordIndex : Int :=
        match firstIdxOf fullTranscript detectedWakeWord with
        | some i => (i : Int)
        | none => -1
      let commandAfterWakeWord :=
        trimList (fullTranscript.drop (wakeWordIndex + detectedWakeWord.length).toNat)
      if 2 < commandAfterWakeWord.length then
        (s1, [Effect.setActivationState true,
              Effect.transcriptionComplete commandAfterWakeWord,
              Effect.processVoiceCommand commandAfterWakeWord])
      else
        (s1, [Effect.setActivationState true,
              Effect.transcriptionUpdate "Activated - listening for commands...".toList])
  else
    let st1 :=
      if !interimTranscript.isEmpty && 2 < (trimList interimTranscript).length then
        let fullCommand := trimList (finalTranscript ++ interimTranscript)
        (({ s with interimTimeout := some fullCommand } : RState),
         [Effect.transcriptionUpdate fullCommand])
      else (s, ([] : List Effect))
    if !(trimList finalTranscript).isEmpty then
      let command := trimList finalTranscript
      if isStopRecordingCommand command then
        (({ isActivated := false, interimTimeout := none } : RState),
         st1.2 ++ [Effect.setActivationState false,
                   Effect.recordingStopped
                     "Recording deactivated - say \"Hey Dom\" to reactivate".toList])
      else
        (({ isActivated := true, interimTimeout := none } : RState),
         st1.2 ++ [Effect.transcriptionComplete command,
                   Effect.processVoiceCommand command,
                   Effect.scheduleRecognitionStop])
    else st1

/-! ## Recognition lifecycle (onend auto-restart, start/stop/restart)
src/unnamed/part_004 lines 1396-1462 and `restartVoiceRecording`. -/

structure VState where
  isListening : Bool
  shouldAutoRestart : Bool
  recognition : Bool
  isActivated : Bool
  deriving Repr, DecidableEq

/-- The onend handler: marks not listening, then auto-restarts only when
`shouldAutoRestart` holds; the delayed callback rechecks
`!isListening && recognition && shouldAutoRestart`.  Returns the new state
and whether `recognition.start()` was called. -/
def onEnd (s : VState) : VState × Bool :=
  let s1 : VState := { s with isListening := false }
  if s1.shouldAutoRestart then
    if !s1.isListening && s1.recognition && s1.shouldAutoRestart then
      ({ s1 with isListening := true }, true)
    else (s1, false)
  else (s1, false)

/-- `stopVoiceRecording`: no-op unless listening with a recognition object;
otherwise disables auto-restart (the recognition.stop() it issues surfaces
later as a separate onend event). -/
def stopVoiceRecording (s : VState) : VState :=
  if !s.isListening || !s.recognition then s
  else { s with shouldAutoRestart := false }

/-- `startVoiceRecording`: no-op when already listening or without a
recognition object; otherwise enables auto-restart, resets activation and
starts recognition. -/
def startVoiceRecording (s : VState) : VState :=
  if s.isListening || !s.recognition then s
  else { s with shouldAutoRestart := true, isActivated := false, isListening := true }

/-- `restartVoiceRecording`: unconditionally re-enables auto-restart, then
starts recognition if not listening. -/
def restartVoiceRecording (s : VState) : VState :=
  let s1 : VState := { s with shouldAutoRestart := true }
  if !s1.isListening && s1.recognition then { s1 with isListening := true } else s1

inductive VEvent where
  | endEvt
  | stopEvt
  | startEvt
  | restartEvt
  deriving Repr, DecidableEq

/-- One lifecycle event; the Bool records whether onend auto-restarted. -/
def vstep (s : VState) : VEvent → VState × Bool
  | VEvent.endEvt => onEnd s
  | VEvent.stopEvt => (stopVoiceRecording s, false)
  | VEvent.startEvt => (startVoiceRecording s, false)
  | VEvent.restartEvt => (restartVoiceRecording s, false)

/-- Run a sequence of lifecycle events, collecting the restart decisions. -/
def runEvents (s : VState) : List VEvent → VState × List Bool
  | [] => (s, [])
  | e :: es =>
    let p := vstep s e
    let q := runEvents p.1 es
    (q.1, p.2 :: q.2)

/-! ## executeActions (src/unnamed/part_004 lines 600-619)

`executeAction` is the per-action body (awaited DOM work plus optional
wait); it is modelled as a state transformer that may also report an error
(the thrown exception the `catch` swallows).  The loop records, in order,
each action together with the error its attempt produced. -/

def executeActions {σ Action Err : Type} (exec : Action → σ → σ × Option Err)
    (st : σ) : List Action → σ × List (Action × Option Err)
  | [] => (st, [])
  | a :: rest =>
    let r := exec a st
    let q := executeActions exec r.1 rest
    (q.1, (a, r.2) :: q.2)

/-! ## Number overlay bookkeeping (src/unnamed/part_004:
showNumbers, hideNumbers, showNumbersDirectly)

`numberedElements` is a JS `Map` (insertion-ordered, `set` overwrites an
existing key in place); `overlays` tracks the appended overlay DOM nodes,
kept here as the list of their numbers.  `findElementFromDescription` and
the DOM query of `showNumbersDirectly` are oracles supplied as
parameters. -/

structure NState (α : Type) where
  overlays : List Nat
  numberedElements : List (Nat × α)
  isShowingNumbers : Bool
  deriving Repr, DecidableEq

/-- JS `Map.prototype.set`: overwrite in place if the key exists, else
append. -/
def mapSet {α : Type} (m : List (Nat × α)) (k : Nat) (v : α) : List (Nat × α) :=
  if m.any (fun p => p.1 = k) then
    m.map (fun p => if p.1 = k then (k, v) else p)
  else m ++ [(k, v)]

/-- `hideNumbers`: removes every overlay, clears the map, resets the
flag. -/
def hideNumbers {α : Type} (_s : NState α) : NState α :=
  { overlays := [], numberedElements := [], isShowingNumbers := false }

/-- One iteration of the `showNumbers` forEach: resolve the description;
skip when unresolved or when the element is already numbered, else append
an overlay and `set` the map entry. -/
def showNumbersStep {δ α : Type} [DecidableEq α] (find : δ → Option α)
    (s : NState α) (item : Nat × δ) : NState α :=
  match find item.2 with
  | none => s
  | some element =>
    if (s.numberedElements.map (fun p => p.2)).contains element then s
    else { s with overlays := s.overlays ++ [item.1],
                  numberedElements := mapSet s.numberedElements item.1 element }

/-- `showNumbers(numberedElements)`: clear, then process each item, then
mark the overlay as showing. -/
def showNumbers {δ α : Type} [DecidableEq α] (find : δ → Option α)
    (items : List (Nat × δ)) (s : NState α) : NState α :=
  let s1 := (hideNumbers s)
  let s2 := items.foldl (showNumbersStep find) s1
  { s2 with isShowingNumbers := true }

/-- `showNumbersDirectly`: clear, number the first 50 visible elements
`1, 2, ...` in order, mark as showing.  `visibleElements` stands for the
sorted visible-element list the DOM query produced. -/
def showNumbersDirectly {α : Type} (visibleElements : List α) (s : NState α) :
    NState α :=
  let s1 := (hideNumbers s)
  let s2 := (visibleElements.take 50).enum.foldl
    (fun st p =>
      { st with
        overlays := st.overlays ++ [p.1 + 1]
        numberedElements := mapSet st.numberedElements (p.1 + 1) p.2 }) s1
  { s2 with isShowingNumbers := true }

/-- The bookkeeping invariant of claim C8: as many overlay nodes as map
entries, and pairwise-distinct numbered elements. -/
def overlayInv {α : Type} (s : NState α) : Prop :=
  s.overlays.length = s.numberedElements.length ∧
    (s.numberedElements.map (fun p => p.2)).Nodup

instance {α : Type} [DecidableEq α] (s : NState α) : Decidable (overlayInv s) := by
  unfold overlayInv; infer_instance

/-! ## switchTab (src/frontend/background.js lines 123-152)

Tabs are `(id, active)` pairs in window order; the result is the index of
the tab passed to `chrome.tabs.update(..., { active: true })`, or `none`
when the function returns without switching. -/

def switchTab (direction : List Char) (tabs : List (Nat × Bool)) : Option Nat :=
  if tabs.length ≤ 1 then none
  else
    match tabs.findIdx? (fun t => t.2) with
    | none => none
    | some currentIndex =>
      if direction = "next".toList || direction = "right".toList then
        some ((currentIndex + 1) % tabs.length)
      else if direction = "previous".toList || direction = "prev".toList ||
          direction = "left".toList then
        some ((currentIndex + tabs.length - 1) % tabs.length)
      else none

/-! # Theorems -/

/-- C3: `executeActions(actions)` attempts the actions strictly
sequentially in list order — the recorded attempt trace lists exactly the
given actions in the given order even when attempts fail (the per-action
`try/catch` swallows the error and the loop continues) — and the final
state is the left fold of the attempts, i.e. action i+1 runs on the state
left behind by action i. -/
theorem C3_executeActions_sequential {σ Action Err : Type}
    (exec : Action → σ → σ × Option Err) (st : σ) (actions : List Action) :
    ((executeActions exec st actions).2.map Prod.fst = actions) ∧
    ((executeActions exec st actions).1 =
      actions.foldl (fun s a => (exec a s).1) st) := by
  induction actions generalizing st with
  | nil => simp [executeActions]
  | cons a rest ih =>
    simp only [executeActions, List.map_cons, List.foldl_cons]
    exact ⟨by simp [(ih (exec a st).1).1], (ih (exec a st).1).2⟩

/-- C6: `showNumberOverlay(elements)` keeps exactly `elements.slice(0, 9)`
as the tracked numbered elements, and its overlay entries carry the
numbers 1 through min(9, elements.length) consecutively, paired with the
kept elements in input order. -/
theorem C6_showNumberOverlay_firstNine {α : Type} (elements : List α) :
    (showNumberOverlay elements).numberedElements = elements.take 9 ∧
    ((showNumberOverlay elements).entries.map Prod.fst =
      List.range' 1 (min 9 elements.length)) ∧
    ((showNumberOverlay elements).entries.map Prod.snd = elements.take 9) := by
  refine ⟨rfl, ?_, ?_⟩
  · show ((elements.take 9).enum.map (fun p => (p.1 + 1, p.2))).map Prod.fst =
      List.range' 1 (min 9 elements.length)
    rw [List.range'_eq_map_range, List.map_map]
    have h1 : (Prod.fst ∘ fun p : Nat × α => (p.1 + 1, p.2)) =
        (fun x => x + 1) ∘ Prod.fst := rfl
    rw [h1, ← List.map_map, List.enum_map_fst, List.length_take]
    simp [Nat.add_comm]
  · show ((elements.take 9).enum.map (fun p => (p.1 + 1, p.2))).map Prod.snd =
      elements.take 9
    rw [List.map_map]
    have h2 : (Prod.snd ∘ fun p : Nat × α => (p.1 + 1, p.2)) =
        (Prod.snd : Nat × α → α) := rfl
    rw [h2, List.enum_map_snd]

/-- C7: with more than one tab and the active tab at index i, switching
"next"/"right" activates index (i+1) mod n, and "previous"/"prev"/"left"
activates index (i-1+n) mod n; with at most one tab, or an unrecognized
direction, no tab switch happens. -/
theorem C7_switchTab (direction : List Char) (tabs : List (Nat × Bool)) :
    (tabs.length ≤ 1 → switchTab direction tabs = none) ∧
    (∀ i, 1 < tabs.length → tabs.findIdx? (fun t => t.2) = some i →
      ((direction = "next".toList ∨ direction = "right".toList) →
        switchTab direction tabs = some ((i + 1) % tabs.length)) ∧
      ((direction = "previous".toList ∨ direction = "prev".toList ∨
          direction = "left".toList) →
        ∃ j, switchTab direction tabs = some j ∧
          (j : Int) = ((i : Int) - 1 + tabs.length) % tabs.length) ∧
      ((direction ≠ "next".toList ∧ direction ≠ "right".toList ∧
          direction ≠ "previous".toList ∧ direction ≠ "prev".toList ∧
          direction ≠ "left".toList) →
        switchTab direction tabs = none)) := by
  constructor
  · intro hle
    simp [switchTab, hle]
  · intro i hn hfind
    have hnle : ¬ tabs.length ≤ 1 := by omega
    refine ⟨?_, ?_, ?_⟩
    · rintro (h | h) <;> simp [switchTab, hnle, hfind, h]
    · intro h
      refine ⟨(i + tabs.length - 1) % tabs.length, ?_, ?_⟩
      · rcases h with h | h | h <;> simp [switchTab, hnle, hfind, h]
      · have hcast : ((i + tabs.length - 1 : Nat) : Int) =
            (i : Int) - 1 + tabs.length := by omega
        rw [Int.natCast_mod, hcast]
    · rintro ⟨h1, h2, h3, h4, h5⟩
      simp only [switchTab, hfind]
      rw [if_neg hnle, if_neg (by simp only [Bool.or_eq_true, decide_eq_true_eq, not_or]; exact ⟨h1, h2⟩),
        if_neg (by simp only [Bool.or_eq_true, decide_eq_true_eq, not_or]; exact ⟨⟨h3, h4⟩, h5⟩)]

/-- Witness for C7 at a concrete input: in a three-tab window with the
first tab active, switching "left" wraps to the last tab,
index (0 - 1 + 3) mod 3 = 2. -/
theorem C7_switchTab_witness :
    ∃ j, switchTab "left".toList [(0, true), (1, false), (2, false)] = some j ∧
      (j : Int) = ((0 : Int) - 1 +
        (([(0, true), (1, false), (2, false)] : List (Nat × Bool)).length : Int)) %
        (([(0, true), (1, false), (2, false)] : List (Nat × Bool)).length : Int) :=
  ((C7_switchTab "left".toList [(0, true), (1, false), (2, false)]).2 0 (by decide)
    (by decide)).2.1 (Or.inr (Or.inr rfl))

/-- C4: whenever recognition ends while `shouldAutoRestart` is true (and a
recognition object exists) the onend handler restarts recognition, and
only then; an effective `stopVoiceRecording` (listening, with a
recognition object) clears `shouldAutoRestart`; and from any state with
`shouldAutoRestart` false, a run of lifecycle events containing no
`startVoiceRecording`/`restartVoiceRecording` performs no restart and
leaves the flag false. -/
theorem C4_auto_restart :
    (∀ s : VState, s.recognition = true →
      ((onEnd s).2 = true ↔ s.shouldAutoRestart = true)) ∧
    (∀ s : VState, s.isListening = true → s.recognition = true →
      (stopVoiceRecording s).shouldAutoRestart = false) ∧
    (∀ (s : VState) (es : List VEvent), s.shouldAutoRestart = false →
      (∀ e ∈ es, e = VEvent.endEvt ∨ e = VEvent.stopEvt) →
      ((runEvents s es).2.all (fun b => b = false) = true ∧
        (runEvents s es).1.shouldAutoRestart = false)) := by
  refine ⟨?_, ?_, ?_⟩
  · intro s hrec
    cases hflag : s.shouldAutoRestart <;> simp [onEnd, hflag, hrec]
  · intro s hl hrec
    simp [stopVoiceRecording, hl, hrec]
  · intro s es
    induction es generalizing s with
    | nil => intro hflag _; simpa [runEvents] using hflag
    | cons e rest ih =>
      intro hflag hmem
      have hrest : ∀ x ∈ rest, x = VEvent.endEvt ∨ x = VEvent.stopEvt :=
        fun x hx => hmem x (List.mem_cons_of_mem e hx)
      have hstep : (vstep s e).2 = false ∧ (vstep s e).1.shouldAutoRestart = false := by
        rcases hmem e (List.mem_cons_self e rest) with he | he <;> subst he
        · constructor <;> simp [vstep, onEnd, hflag]
        · refine ⟨rfl, ?_⟩
          show (stopVoiceRecording s).shouldAutoRestart = false
          unfold stopVoiceRecording
          split
          · exact hflag
          · rfl
      have hres := ih (vstep s e).1 hstep.2 hrest
      constructor
      · simp only [runEvents, List.all_cons, hstep.1]
        simpa using hres.1
      · simp only [runEvents]
        exact hres.2

/-- Witness for C4 at concrete states: an idle ended recognition with the
flag set restarts; an effective stop clears the flag; and an
end/stop-only event run from a flag-false state never restarts. -/
theorem C4_auto_restart_witness :
    ((onEnd ⟨false, true, true, false⟩).2 = true ↔
      (⟨false, true, true, false⟩ : VState).shouldAutoRestart = true) ∧
    (stopVoiceRecording ⟨true, true, true, false⟩).shouldAutoRestart = false ∧
    ((runEvents ⟨true, false, true, false⟩
        [VEvent.endEvt, VEvent.stopEvt, VEvent.endEvt]).2.all
          (fun b => b = false) = true ∧
      (runEvents ⟨true, false, true, false⟩
        [VEvent.endEvt, VEvent.stopEvt, VEvent.endEvt]).1.shouldAutoRestart = false) :=
  ⟨C4_auto_restart.1 _ rfl, C4_auto_restart.2.1 _ rfl rfl,
    C4_auto_restart.2.2 _ _ rfl (by decide)⟩

/-- C1 counterexample: the claim "activates if and only if the transcript
contains the phrase hey dom" is false: while not activated, the result
batch whose sole transcript is "Tom" (lowercased transcript "tom")
activates command listening although "tom" does not contain "hey dom". -/
theorem C1_counterexample :
    (onResult ⟨false, none⟩ [("Tom".toList, false)]).1.isActivated = true ∧
    containsL (fullTranscriptOf [("Tom".toList, false)]) "hey dom".toList = false := by
  decide

/-- C1 (amended): while not yet activated, a recognition result activates
command listening if and only if the wake-word detector matches its
lowercased combined transcript — i.e. some entry of the variation list is
contained in the transcript, or a short (length at most 4) entry
fuzzy-matches one of its space-separated words; containing "hey dom" is
sufficient but not necessary. -/
theorem C1_wake_word_activation (s : RState) (results : List (List Char × Bool))
    (hact : s.isActivated = false) :
    ((onResult s results).1.isActivated = true ↔
      (detectWakeWord (fullTranscriptOf results)).isSome = true) ∧
    (containsL (fullTranscriptOf results) "hey dom".toList = true →
      (onResult s results).1.isActivated = true) := by
  have hiff : (onResult s results).1.isActivated = true ↔
      (detectWakeWord (fullTranscriptOf results)).isSome = true := by
    cases hdet : detectWakeWord (fullTranscriptOf results) with
    | none =>
      simp only [onResult, hact, hdet]
      simp [hact]
    | some v =>
      simp only [onResult, hact, hdet]
      split
      · split <;> simp
      · simp_all
  refine ⟨hiff, fun hc => hiff.mpr ?_⟩
  unfold detectWakeWord wakeWordVariations
  rw [List.find?_cons_of_pos]
  · rfl
  · show matchesVariation (fullTranscriptOf results) "hey dom".toList = true
    unfold matchesVariation
    rw [hc]
    rfl

/-- Witness for C1 at a concrete input: the transcript
"hey dom click login" activates. -/
theorem C1_wake_word_activation_witness :
    ((onResult ⟨false, none⟩ [("hey dom click login".toList, true)]).1.isActivated = true ↔
      (detectWakeWord (fullTranscriptOf [("hey dom click login".toList, true)])).isSome = true) ∧
    (containsL (fullTranscriptOf [("hey dom click login".toList, true)])
        "hey dom".toList = true →
      (onResult ⟨false, none⟩ [("hey dom click login".toList, true)]).1.isActivated = true) :=
  C1_wake_word_activation ⟨false, none⟩ [("hey dom click login".toList, true)] rfl

/-- C2: while the activated flag is false, a recognition result in which
no wake-word variation is detected is dropped entirely: the handler
neither calls processVoiceCommand nor sends a transcriptionComplete
message (in fact it changes nothing and emits no effect at all). -/
theorem C2_no_command_before_activation (s : RState)
    (results : List (List Char × Bool))
    (hact : s.isActivated = false)
    (hdet : detectWakeWord (fullTranscriptOf results) = none) :
    onResult s results = (s, []) ∧
    (∀ t, Effect.processVoiceCommand t ∉ (onResult s results).2 ∧
      Effect.transcriptionComplete t ∉ (onResult s results).2) := by
  have h : onResult s results = (s, []) := by
    simp [onResult, hact, hdet]
  exact ⟨h, fun t => by rw [h]; simp⟩

/-- Witness for C2 at a concrete input: the transcript "what is this"
contains no wake-word variation and is dropped. -/
theorem C2_no_command_before_activation_witness :
    onResult ⟨false, none⟩ [("what is this".toList, false)] =
      (⟨false, none⟩, []) ∧
    (∀ t, Effect.processVoiceCommand t ∉
        (onResult ⟨false, none⟩ [("what is this".toList, false)]).2 ∧
      Effect.transcriptionComplete t ∉
        (onResult ⟨false, none⟩ [("what is this".toList, false)]).2) :=
  C2_no_command_before_activation ⟨false, none⟩ [("what is this".toList, false)]
    rfl (by decide)

/-- C10: isStopRecordingCommand holds exactly when the lowercased trimmed
command contains one of the eight stop phrases; and a nonempty final
transcript that satisfies it while activated deactivates the script and is
never forwarded to the backend through processVoiceCommand. -/
theorem C10_stop_recording :
    (∀ command : List Char,
      isStopRecordingCommand command = true ↔
        (containsL (trimList (lowerList command)) "stop recording".toList = true ∨
         containsL (trimList (lowerList command)) "stop record".toList = true ∨
         containsL (trimList (lowerList command)) "end recording".toList = true ∨
         containsL (trimList (lowerList command)) "finish recording".toList = true ∨
         containsL (trimList (lowerList command)) "quit recording".toList = true ∨
         containsL (trimList (lowerList command)) "close recording".toList = true ∨
         containsL (trimList (lowerList command)) "turn off recording".toList = true ∨
         containsL (trimList (lowerList command)) "disable recording".toList = true)) ∧
    (∀ (s : RState) (results : List (List Char × Bool)),
      s.isActivated = true →
      trimList (finalOf results) ≠ [] →
      isStopRecordingCommand (trimList (finalOf results)) = true →
      (onResult s results).1.isActivated = false ∧
        ∀ t, Effect.processVoiceCommand t ∉ (onResult s results).2) := by
  constructor
  · intro command
    simp [isStopRecordingCommand, stopPatterns]
  · intro s results hact hne hstop
    have hne' : (trimList (finalOf results)).isEmpty = false := by
      cases h : trimList (finalOf results) with
      | nil => exact absurd h hne
      | cons a l => rfl
    constructor
    · simp only [onResult, hact]
      rw [if_neg (by simp), if_pos (by simp [hne']), if_pos hstop]
    · intro t
      simp only [onResult, hact]
      rw [if_neg (by simp), if_pos (by simp [hne']), if_pos hstop]
      split <;> simp

/-- Witness for C10 at a concrete input: the final transcript
"stop recording" deactivates and is not forwarded. -/
theorem C10_stop_recording_witness :
    (isStopRecordingCommand "stop recording".toList = true ↔
      (containsL (trimList (lowerList "stop recording".toList)) "stop recording".toList = true ∨
       containsL (trimList (lowerList "stop recording".toList)) "stop record".toList = true ∨
       containsL (trimList (lowerList "stop recording".toList)) "end recording".toList = true ∨
       containsL (trimList (lowerList "stop recording".toList)) "finish recording".toList = true ∨
       containsL (trimList (lowerList "stop recording".toList)) "quit recording".toList = true ∨
       containsL (trimList (lowerList "stop recording".toList)) "close recording".toList = true ∨
       containsL (trimList (lowerList "stop recording".toList)) "turn off recording".toList = true ∨
       containsL (trimList (lowerList "stop recording".toList)) "disable recording".toList = true)) ∧
    ((onResult ⟨true, none⟩ [("stop recording".toList, true)]).1.isActivated = false ∧
      ∀ t, Effect.processVoiceCommand t ∉
        (onResult ⟨true, none⟩ [("stop recording".toList, true)]).2) :=
  ⟨C10_stop_recording.1 "stop recording".toList,
    C10_stop_recording.2 ⟨true, none⟩ [("stop recording".toList, true)]
      rfl (by decide) (by decide)⟩

/-- C9: handleNumberKeyPress clicks the stored element at index k-1 only
when the key parses (JS parseInt) to an integer k with 1 <= k <= 9 and
k <= numberedElements.length — so the array access is always in bounds —
and any key parsing outside that range clicks nothing. -/
theorem C9_keypress_bounds {α : Type} (key : List Char) (elems : List α) :
    (∀ e, (handleNumberKeyPress key elems).clicked = some e →
      ∃ k : Int, parseIntJS key = some k ∧ 1 ≤ k ∧ k ≤ 9 ∧
        k ≤ (elems.length : Int) ∧ elems.get? (k.toNat - 1) = some e) ∧
    (∀ k : Int, parseIntJS key = some k → 1 ≤ k → k ≤ 9 →
      k ≤ (elems.length : Int) →
      ((handleNumberKeyPress key elems).clicked).isSome = true) ∧
    ((parseIntJS key = none ∨
        ∃ k : Int, parseIntJS key = some k ∧
          ¬(1 ≤ k ∧ k ≤ 9 ∧ k ≤ (elems.length : Int))) →
      (handleNumberKeyPress key elems).clicked = none) := by
  refine ⟨?_, ?_, ?_⟩
  · intro e he
    simp only [handleNumberKeyPress] at he
    cases hp : parseIntJS key with
    | none => rw [hp] at he; simp at he
    | some k =>
      simp only [hp] at he
      by_cases hcb :
          (decide (1 ≤ k) && decide (k ≤ 9) && decide (k ≤ (elems.length : Int))) = true
      · rw [if_pos hcb] at he
        simp only [Bool.and_eq_true, decide_eq_true_eq] at hcb
        exact ⟨k, rfl, hcb.1.1, hcb.1.2, hcb.2, he⟩
      · rw [if_neg hcb] at he
        simp at he
  · intro k hp h1 h9 hlen
    simp only [handleNumberKeyPress, hp]
    rw [if_pos (by simp [h1, h9, hlen])]
    have hlt : k.toNat - 1 < elems.length := by omega
    cases hg : elems.get? (k.toNat - 1) with
    | none => rw [List.get?_eq_none] at hg; omega
    | some e => simp
  · rintro (hp | ⟨k, hp, hcond⟩)
    · simp [handleNumberKeyPress, hp]
    · simp only [handleNumberKeyPress, hp]
      rw [if_neg (by simp only [Bool.and_eq_true, decide_eq_true_eq]; tauto)]

/-- Witness for C9 at a concrete input: key "3" over four stored elements
clicks the element at index 2. -/
theorem C9_keypress_bounds_witness :
    ∃ k : Int, parseIntJS "3".toList = some k ∧ 1 ≤ k ∧ k ≤ 9 ∧
      k ≤ (([10, 20, 30, 40] : List Nat).length : Int) ∧
      ([10, 20, 30, 40] : List Nat).get? (k.toNat - 1) = some 30 :=
  (C9_keypress_bounds "3".toList [10, 20, 30, 40]).1 30 (by decide)

/-! Helper lemmas about the stop-word removal scanner and trimming, used
to relate `extractTargetText` (which trims before and after the
replacement) to the specification reading (replacement, then trim). -/

theorem isWS_not_word {c : Char} (h : isWS c = true) : isWordChar c = false := by
  have h' : c = ' ' ∨ c = '\t' ∨ c = '\x0d' ∨ c = '\n' := by
    simp only [isWS] at h
    unfold Char.isWhitespace at h
    simp only [Bool.or_eq_true, decide_eq_true_eq] at h
    tauto
  rcases h' with h' | h' | h' | h' <;> subst h' <;> decide

theorem emitRun_nil : emitRun [] = [] := by decide

theorem removeStop_cons_nonword {c : Char} (h : isWordChar c = false)
    (xs : List Char) : removeStop (c :: xs) = c :: removeStop xs := by
  unfold removeStop
  simp only [removeStopCore, h]
  simp [emitRun_nil]

theorem removeStop_ws_prepend (pre xs : List Char)
    (h : ∀ c ∈ pre, isWS c = true) :
    removeStop (pre ++ xs) = pre ++ removeStop xs := by
  induction pre with
  | nil => simp
  | cons c t ih =>
    have hc : isWordChar c = false := isWS_not_word (h c (List.mem_cons_self c t))
    have ht : ∀ x ∈ t, isWS x = true := fun x hx => h x (List.mem_cons_of_mem c hx)
    simp only [List.cons_append, removeStop_cons_nonword hc, ih ht]

theorem removeStopCore_all_nonword (ws : List Char)
    (h : ∀ c ∈ ws, isWordChar c = false) : removeStopCore ws = ([], ws) := by
  induction ws with
  | nil => rfl
  | cons c t ih =>
    have hc : isWordChar c = false := h c (List.mem_cons_self c t)
    have ht := ih fun x hx => h x (List.mem_cons_of_mem c hx)
    simp [removeStopCore, hc, ht, emitRun_nil]

theorem removeStopCore_append_nonword (xs ws : List Char)
    (h : ∀ c ∈ ws, isWordChar c = false) :
    removeStopCore (xs ++ ws) =
      ((removeStopCore xs).1, (removeStopCore xs).2 ++ ws) := by
  induction xs with
  | nil => simp [removeStopCore_all_nonword ws h, removeStopCore]
  | cons x t ih =>
    simp only [List.cons_append, removeStopCore]
    by_cases hx : isWordChar x = true
    · simp [hx, ih]
    · simp [hx, ih]

theorem removeStop_append_nonword (xs ws : List Char)
    (h : ∀ c ∈ ws, isWordChar c = false) :
    removeStop (xs ++ ws) = removeStop xs ++ ws := by
  unfold removeStop
  rw [removeStopCore_append_nonword xs ws h]
  simp [List.append_assoc]

theorem trimL_ws_append (pre xs : List Char) (h : ∀ c ∈ pre, isWS c = true) :
    trimL (pre ++ xs) = trimL xs := by
  induction pre with
  | nil => rfl
  | cons c t ih =>
    have hc := h c (List.mem_cons_self c t)
    have ht := ih fun x hx => h x (List.mem_cons_of_mem c hx)
    simp [trimL, List.dropWhile_cons, hc] at ht ⊢
    exact ht

theorem trimL_decomp (xs : List Char) :
    ∃ pre, (∀ c ∈ pre, isWS c = true) ∧ pre ++ trimL xs = xs := by
  refine ⟨xs.takeWhile isWS, fun _ hc => List.mem_takeWhile_imp hc, ?_⟩
  show xs.takeWhile isWS ++ xs.dropWhile isWS = xs
  exact List.takeWhile_append_dropWhile ..

theorem trimR_decomp (xs : List Char) :
    ∃ ws, (∀ c ∈ ws, isWS c = true) ∧ trimR xs ++ ws = xs := by
  refine ⟨(xs.reverse.takeWhile isWS).reverse, ?_, ?_⟩
  · intro c hc
    rw [List.mem_reverse] at hc
    exact List.mem_takeWhile_imp hc
  · show (xs.reverse.dropWhile isWS).reverse ++ (xs.reverse.takeWhile isWS).reverse = xs
    rw [← List.reverse_append, List.takeWhile_append_dropWhile, List.reverse_reverse]

theorem trimR_append_ws (xs ws : List Char) (h : ∀ c ∈ ws, isWS c = true) :
    trimR (xs ++ ws) = trimR xs := by
  unfold trimR
  rw [List.reverse_append]
  have h2 := trimL_ws_append ws.reverse xs.reverse
    (fun c hc => h c (List.mem_reverse.mp hc))
  simp only [trimL] at h2
  rw [h2]

theorem trimL_append_of_ne (xs ws : List Char) (hx : trimL xs ≠ []) :
    trimL (xs ++ ws) = trimL xs ++ ws := by
  induction xs with
  | nil => exact absurd rfl hx
  | cons c t ih =>
    by_cases hc : isWS c = true
    · have h1 : trimL (c :: t) = trimL t := by simp [trimL, List.dropWhile_cons, hc]
      rw [h1] at hx
      simp only [List.cons_append, trimL, List.dropWhile_cons, hc, if_pos]
      exact ih hx
    · simp [trimL, List.dropWhile_cons, hc]

theorem trimList_append_ws (xs ws : List Char) (h : ∀ c ∈ ws, isWS c = true) :
    trimList (xs ++ ws) = trimList xs := by
  by_cases hx : trimL xs = []
  · have hall : ∀ c ∈ xs, isWS c = true := by
      have h0 := List.dropWhile_eq_nil_iff.mp (by simpa [trimL] using hx)
      simpa using h0
    have hLws : trimL ws = [] := by
      simp only [trimL]
      exact List.dropWhile_eq_nil_iff.mpr (by simpa using h)
    unfold trimList
    rw [trimL_ws_append xs ws hall, hx, hLws]
  · unfold trimList
    rw [trimL_append_of_ne xs ws hx, trimR_append_ws _ _ h]

theorem trim_removeStop_trim (s : List Char) :
    trimList (removeStop (trimList s)) = trimList (removeStop s) := by
  obtain ⟨pre, hpre, hpeq⟩ := trimL_decomp s
  have h1 : trimList (removeStop s) = trimList (removeStop (trimL s)) := by
    conv_lhs => rw [← hpeq]
    rw [removeStop_ws_prepend pre (trimL s) hpre]
    show trimR (trimL (pre ++ removeStop (trimL s))) = _
    rw [trimL_ws_append pre _ hpre]
    rfl
  obtain ⟨ws, hws, hweq⟩ := trimR_decomp (trimL s)
  have h2 : trimList (removeStop (trimL s)) = trimList (removeStop (trimR (trimL s))) := by
    conv_lhs => rw [← hweq]
    rw [removeStop_append_nonword _ ws (fun c hc => isWS_not_word (hws c hc)),
      trimList_append_ws _ ws hws]
  rw [h1, h2]
  rfl

/-- C5: extractTargetText returns the part of the command after the first
occurrence of the action keyword with the whole-word stop words
the/a/an/button/link/field removed and surrounding whitespace trimmed, and
the empty string when the action keyword does not occur. -/
theorem C5_extractTargetText (command action : List Char) :
    (firstIdxOf command action = none → extractTargetText command action = []) ∧
    (∀ i, firstIdxOf command action = some i →
      extractTargetText command action =
        trimList (removeStop (command.drop (i + action.length)))) := by
  constructor
  · intro h
    simp [extractTargetText, h]
  · intro i h
    simp only [extractTargetText, h]
    exact trim_removeStop_trim _

/-- Witness for C5 at a concrete input: for the command
"click the submit button" and action "click" the keyword occurs at index
0 and the extracted target is "submit". -/
theorem C5_extractTargetText_witness :
    extractTargetText "click the submit button".toList "click".toList =
      trimList (removeStop (("click the submit button".toList).drop
        (0 + ("click".toList).length))) ∧
    extractTargetText "click the submit button".toList "click".toList =
      "submit".toList :=
  ⟨(C5_extractTargetText "click the submit button".toList "click".toList).2 0
      (by decide),
    by decide⟩

/-! Helper lemmas for the number-overlay bookkeeping invariant. -/

theorem mapSet_append {α : Type} (m : List (Nat × α)) (k : Nat) (v : α)
    (h : ∀ p ∈ m, p.1 ≠ k) : mapSet m k v = m ++ [(k, v)] := by
  unfold mapSet
  rw [if_neg (by
    simp only [List.any_eq_true, decide_eq_true_eq]
    rintro ⟨p, hp, hk⟩
    exact h p hp hk)]

/-- A `showNumbers` iteration either leaves the state unchanged or appends
one overlay and one fresh-element map entry. -/
theorem showNumbersStep_cases {δ α : Type} [DecidableEq α] (find : δ → Option α)
    (s : NState α) (item : Nat × δ) :
    showNumbersStep find s item = s ∨
    ∃ e, e ∉ s.numberedElements.map (fun p => p.2) ∧
      showNumbersStep find s item =
        { s with overlays := s.overlays ++ [item.1],
                 numberedElements := mapSet s.numberedElements item.1 e } := by
  unfold showNumbersStep
  cases hf : find item.2 with
  | none => exact Or.inl rfl
  | some e =>
    dsimp only
    by_cases hm : ((s.numberedElements.map (fun p => p.2)).contains e) = true
    · rw [if_pos hm]
      exact Or.inl rfl
    · rw [if_neg hm]
      refine Or.inr ⟨e, ?_, rfl⟩
      simpa using hm

theorem showNumbers_fold_inv {δ α : Type} [DecidableEq α] (find : δ → Option α) :
    ∀ (items : List (Nat × δ)) (s : NState α),
      overlayInv s → (items.map Prod.fst).Nodup →
      (∀ k ∈ s.numberedElements.map Prod.fst, k ∉ items.map Prod.fst) →
      overlayInv (items.foldl (showNumbersStep find) s) ∧
      (∀ k ∈ (items.foldl (showNumbersStep find) s).numberedElements.map Prod.fst,
        k ∈ s.numberedElements.map Prod.fst ∨ k ∈ items.map Prod.fst) := by
  intro items
  induction items with
  | nil =>
    intro s hs _ _
    exact ⟨hs, fun k hk => Or.inl hk⟩
  | cons it rest ih =>
    intro s hs hnd hdisj
    simp only [List.map_cons, List.nodup_cons] at hnd
    simp only [List.map_cons] at hdisj
    rw [List.foldl_cons]
    rcases showNumbersStep_cases find s it with hcase | ⟨e, he, hcase⟩
    · rw [hcase]
      have hmain := ih s hs hnd.2
        (fun k hk hr => hdisj k hk (List.mem_cons_of_mem _ hr))
      refine ⟨hmain.1, fun k hk => ?_⟩
      rcases hmain.2 k hk with h1 | h1
      · exact Or.inl h1
      · exact Or.inr (by simp only [List.map_cons]; exact List.mem_cons_of_mem _ h1)
    · have hknot : ∀ p ∈ s.numberedElements, p.1 ≠ it.1 := by
        intro p hp hcontra
        exact hdisj it.1 (List.mem_map.mpr ⟨p, hp, hcontra⟩) (List.mem_cons_self _ _)
      have hkeys1 : (showNumbersStep find s it).numberedElements.map Prod.fst =
          s.numberedElements.map Prod.fst ++ [it.1] := by
        rw [hcase]
        simp [mapSet_append _ _ _ hknot]
      have hInv1 : overlayInv (showNumbersStep find s it) := by
        rw [hcase]
        constructor
        · show (s.overlays ++ [it.1]).length = (mapSet s.numberedElements it.1 e).length
          rw [mapSet_append _ _ _ hknot]
          simp [hs.1]
        · show ((mapSet s.numberedElements it.1 e).map (fun p => p.2)).Nodup
          rw [mapSet_append _ _ _ hknot]
          simp only [List.map_append, List.map_cons, List.map_nil]
          refine List.Nodup.append hs.2 (List.nodup_singleton e) ?_
          intro a ha hae
          rw [List.mem_singleton] at hae
          subst hae
          exact he ha
      have hdisj1 : ∀ k ∈ (showNumbersStep find s it).numberedElements.map Prod.fst,
          k ∉ rest.map Prod.fst := by
        intro k hk
        rw [hkeys1] at hk
        rcases List.mem_append.mp hk with h1 | h1
        · exact fun hr => hdisj k h1 (List.mem_cons_of_mem _ hr)
        · rw [List.mem_singleton] at h1
          subst h1
          exact hnd.1
      have hmain := ih (showNumbersStep find s it) hInv1 hnd.2 hdisj1
      refine ⟨hmain.1, fun k hk => ?_⟩
      rcases hmain.2 k hk with h1 | h1
      · rw [hkeys1] at h1
        rcases List.mem_append.mp h1 with h2 | h2
        · exact Or.inl h2
        · rw [List.mem_singleton] at h2
          subst h2
          exact Or.inr (by simp)
      · exact Or.inr (by simp only [List.map_cons]; exact List.mem_cons_of_mem _ h1)

theorem direct_fold_inv {α : Type} :
    ∀ (l : List (Nat × α)) (s : NState α),
      overlayInv s →
      (l.map (fun p => p.1 + 1)).Nodup →
      (l.map Prod.snd).Nodup →
      (∀ k ∈ s.numberedElements.map Prod.fst, k ∉ l.map (fun p => p.1 + 1)) →
      (∀ e ∈ s.numberedElements.map (fun p => p.2), e ∉ l.map Prod.snd) →
      overlayInv (l.foldl
        (fun st p =>
          { st with
            overlays := st.overlays ++ [p.1 + 1]
            numberedElements := mapSet st.numberedElements (p.1 + 1) p.2 }) s) ∧
      (∀ k ∈ (l.foldl
          (fun st p =>
            { st with
              overlays := st.overlays ++ [p.1 + 1]
              numberedElements := mapSet st.numberedElements (p.1 + 1) p.2 })
            s).numberedElements.map Prod.fst,
        k ∈ s.numberedElements.map Prod.fst ∨ k ∈ l.map (fun p => p.1 + 1)) ∧
      (∀ e ∈ (l.foldl
          (fun st p =>
            { st with
              overlays := st.overlays ++ [p.1 + 1]
              numberedElements := mapSet st.numberedElements (p.1 + 1) p.2 })
            s).numberedElements.map (fun p => p.2),
        e ∈ s.numberedElements.map (fun p => p.2) ∨ e ∈ l.map Prod.snd) := by
  intro l
  induction l with
  | nil =>
    intro s hs _ _ _ _
    exact ⟨hs, fun k hk => Or.inl hk, fun e he => Or.inl he⟩
  | cons q rest ih =>
    intro s hs hndk hnde hdisjk hdisje
    simp only [List.map_cons, List.nodup_cons] at hndk hnde
    simp only [List.map_cons] at hdisjk hdisje
    rw [List.foldl_cons]
    have hknot : ∀ p ∈ s.numberedElements, p.1 ≠ q.1 + 1 := by
      intro p hp hcontra
      exact hdisjk (q.1 + 1) (List.mem_map.mpr ⟨p, hp, hcontra⟩)
        (List.mem_cons_self _ _)
    have henot : q.2 ∉ s.numberedElements.map (fun p => p.2) := by
      intro hq
      exact hdisje q.2 hq (List.mem_cons_self _ _)
    set s1 : NState α :=
      { s with
        overlays := s.overlays ++ [q.1 + 1]
        numberedElements := mapSet s.numberedElements (q.1 + 1) q.2 } with hs1
    have hkeys1 : s1.numberedElements.map Prod.fst =
        s.numberedElements.map Prod.fst ++ [q.1 + 1] := by
      rw [hs1]
      simp [mapSet_append _ _ _ hknot]
    have hvals1 : s1.numberedElements.map (fun p => p.2) =
        s.numberedElements.map (fun p => p.2) ++ [q.2] := by
      rw [hs1]
      simp [mapSet_append _ _ _ hknot]
    have hInv1 : overlayInv s1 := by
      constructor
      · show s1.overlays.length = s1.numberedElements.length
        rw [hs1]
        simp only [mapSet_append _ _ _ hknot]
        simp [hs.1]
      · rw [hvals1]
        refine List.Nodup.append hs.2 (List.nodup_singleton q.2) ?_
        intro a ha hae
        rw [List.mem_singleton] at hae
        subst hae
        exact henot ha
    have hdisjk1 : ∀ k ∈ s1.numberedElements.map Prod.fst,
        k ∉ rest.map (fun p => p.1 + 1) := by
      intro k hk
      rw [hkeys1] at hk
      rcases List.mem_append.mp hk with h1 | h1
      · exact fun hr => hdisjk k h1 (List.mem_cons_of_mem _ hr)
      · rw [List.mem_singleton] at h1
        subst h1
        exact hndk.1
    have hdisje1 : ∀ e ∈ s1.numberedElements.map (fun p => p.2),
        e ∉ rest.map Prod.snd := by
      intro e he'
      rw [hvals1] at he'
      rcases List.mem_append.mp he' with h1 | h1
      · exact fun hr => hdisje e h1 (List.mem_cons_of_mem _ hr)
      · rw [List.mem_singleton] at h1
        subst h1
        exact hnde.1
    have hmain := ih s1 hInv1 hndk.2 hnde.2 hdisjk1 hdisje1
    refine ⟨hmain.1, fun k hk => ?_, fun e he' => ?_⟩
    · rcases hmain.2.1 k hk with h1 | h1
      · rw [hkeys1] at h1
        rcases List.mem_append.mp h1 with h2 | h2
        · exact Or.inl h2
        · rw [List.mem_singleton] at h2
          subst h2
          exact Or.inr (by simp)
      · exact Or.inr (by simp only [List.map_cons]; exact List.mem_cons_of_mem _ h1)
    · rcases hmain.2.2 e he' with h1 | h1
      · rw [hvals1] at h1
        rcases List.mem_append.mp h1 with h2 | h2
        · exact Or.inl h2
        · rw [List.mem_singleton] at h2
          subst h2
          exact Or.inr (by simp)
      · exact Or.inr (by simp only [List.map_cons]; exact List.mem_cons_of_mem _ h1)

/-- C8 counterexample: the bookkeeping invariant fails as claimed when
`showNumbers` receives two items carrying the same number that resolve to
distinct elements: two overlays are appended but the map (whose `set`
overwrites an existing key) keeps a single entry. -/
theorem C8_counterexample :
    ¬ overlayInv (showNumbers (fun d : Nat => some d) [(1, 10), (1, 20)]
      ⟨[], [], false⟩) := by
  decide

/-- C8 (amended): provided the items passed to showNumbers carry pairwise
distinct numbers, after showNumbers the overlay count equals the map size
and the numbered elements are pairwise distinct (an already-numbered
element is skipped); the same invariant holds after showNumbersDirectly on
distinct visible elements; and hideNumbers always empties both and resets
the flag, idempotently. -/
theorem C8_overlay_bookkeeping {δ α : Type} [DecidableEq α] :
    (∀ (find : δ → Option α) (items : List (Nat × δ)) (s : NState α),
      (items.map Prod.fst).Nodup → overlayInv (showNumbers find items s)) ∧
    (∀ (visibleElements : List α) (s : NState α),
      visibleElements.Nodup → overlayInv (showNumbersDirectly visibleElements s)) ∧
    (∀ s : NState α,
      hideNumbers s = ⟨[], [], false⟩ ∧
      hideNumbers (hideNumbers s) = hideNumbers s ∧
      overlayInv (hideNumbers s)) := by
  refine ⟨?_, ?_, ?_⟩
  · intro find items s hnd
    have h := showNumbers_fold_inv find items ⟨[], [], false⟩
      ⟨rfl, List.nodup_nil⟩ hnd (by intro k hk; simp at hk)
    exact h.1
  · intro vis s hnd
    have hnd1 : ((vis.take 50).enum.map (fun p => p.1 + 1)).Nodup := by
      rw [show (fun p : Nat × α => p.1 + 1) = ((fun x => x + 1) ∘ Prod.fst) from rfl,
        ← List.map_map, List.enum_map_fst]
      exact (List.nodup_range _).map (fun a b h => by omega)
    have hnd2 : ((vis.take 50).enum.map Prod.snd).Nodup := by
      rw [List.enum_map_snd]
      exact hnd.sublist (List.take_sublist _ _)
    have h := direct_fold_inv (vis.take 50).enum ⟨[], [], false⟩
      ⟨rfl, List.nodup_nil⟩ hnd1 hnd2 (by intro k hk; simp at hk)
      (by intro e he; simp at he)
    exact h.1
  · intro s
    exact ⟨rfl, rfl, rfl, List.nodup_nil⟩

/-- Witness for C8 at concrete inputs: distinct-number items, distinct
direct elements, and a nonempty state that hideNumbers clears. -/
theorem C8_overlay_bookkeeping_witness :
    overlayInv (showNumbers (fun d : Nat => some d) [(1, 10), (2, 20)]
      ⟨[], [], false⟩) ∧
    overlayInv (showNumbersDirectly [5, 7, 9] (⟨[1], [(1, 5)], true⟩ : NState Nat)) ∧
    (hideNumbers (⟨[1], [(1, 5)], true⟩ : NState Nat) = ⟨[], [], false⟩ ∧
      hideNumbers (hideNumbers (⟨[1], [(1, 5)], true⟩ : NState Nat)) =
        hideNumbers (⟨[1], [(1, 5)], true⟩ : NState Nat) ∧
      overlayInv (hideNumbers (⟨[1], [(1, 5)], true⟩ : NState Nat))) :=
  ⟨(@C8_overlay_bookkeeping Nat Nat _).1 _ _ _ (by decide),
    (@C8_overlay_bookkeeping Nat Nat _).2.1 [5, 7, 9] _ (by decide),
    (@C8_overlay_bookkeeping Nat Nat _).2.2 _⟩

end Dom
